import Mathlib

/-!
Verification of a log-structured key-value storage engine.

The development shallowly embeds the two C++ sources of the repository
(`Version 0 - Single Log Append File/main.cpp` and
`Version 0 - With limited size multiple log append life/main.cpp`).
Files are byte lists (`List Nat`, each element a byte value), machine
integers are `Nat`/`Int`, and the one place where a C++ cast of a
negative stream position to `uint64_t` matters is modelled with an
explicit `2 ^ 64 - 1`.

Correspondence to the source:
- `MetaData`, `HashMap` mirror the `MetaData` struct and the `HashMap`
  class (a `std::map<int, MetaData>` plus `currByteOffset`).
- `stoi`, `splitAtComma`, `decDigitsAux`/`natToBytes`/`intToBytes`
  model `std::stoi`, `data.find(',')` and `std::to_string`.
- `Store` mirrors the `Store` class: an append-only file, its in-memory
  cache and (multi-file version) `totalBytes`.  `Store.set`, `Store.get`
  and `Store.recover` model `Store::set`, `Store::get` and the replay
  loop of `Store::init`.
- `StorageEngine` mirrors the `StorageEngine` class of the multi-file
  version, including the fact that `StorageEngine::set` binds a
  reference to the front store before a possible rotation.
-/

namespace LogKV

/-! ### Bytes and the record framing

The source writes records as `std::to_string(key) + "," + value + DELIMITER`
with `DELIMITER = '\0'`.  Byte values: `','` is 44, `'-'` is 45, digits
are 48..57, the delimiter is 0. -/

/-- Big-endian decimal digits of a positive number, with explicit fuel
(the first argument); `decDigitsAux f n` is the digit list of `n`
whenever `n ≤ f`.  Models the digit sequence produced by
`std::to_string` for a positive integer. -/
def decDigitsAux : Nat → Nat → List Nat
  | _, 0 => []
  | 0, _ + 1 => []
  | f + 1, n + 1 => decDigitsAux f ((n + 1) / 10) ++ [(n + 1) % 10]

/-- ASCII bytes of `std::to_string` applied to a nonnegative number. -/
def natToBytes (n : Nat) : List Nat :=
  if n = 0 then [48] else (decDigitsAux n n).map (fun d => d + 48)

/-- ASCII bytes of `std::to_string(key)` for an `int` key. -/
def intToBytes (k : Int) : List Nat :=
  if k < 0 then 45 :: natToBytes k.natAbs else natToBytes k.natAbs

/-- The part of a record frame before the delimiter:
`ASCII(key) ++ "," ++ value`. -/
def payload (key : Int) (value : List Nat) : List Nat :=
  intToBytes key ++ 44 :: value

/-- One serialized record:
`std::to_string(key) + "," + value + DELIMITER` (source line
`std::string data = std::to_string(key) + "," + value + DELIMITER;`). -/
def frame (key : Int) (value : List Nat) : List Nat :=
  payload key value ++ [0]

/-- Whitespace bytes skipped by `std::stoi`. -/
def isSpace (b : Nat) : Bool :=
  b = 32 || b = 9 || b = 10 || b = 11 || b = 12 || b = 13

/-- ASCII decimal digit bytes. -/
def isDigit (b : Nat) : Bool :=
  48 ≤ b && b ≤ 57

/-- Numeric value of a big-endian list of ASCII digit bytes. -/
def digitsVal (l : List Nat) : Nat :=
  l.foldl (fun acc b => acc * 10 + (b - 48)) 0

/-- Model of `std::stoi` on a byte string: skip leading whitespace, an
optional sign, then at least one decimal digit (parsing stops at the
first non-digit); `none` models the `std::invalid_argument` /
`std::out_of_range` exceptions caught by the source's `catch (...)`. -/
def stoi (s : List Nat) : Option Int :=
  match s.dropWhile (fun b => isSpace b) with
  | [] => none
  | b :: t =>
    let digs := if b = 45 || b = 43 then t.takeWhile (fun x => isDigit x)
                else (b :: t).takeWhile (fun x => isDigit x)
    if digs = [] then none
    else
      let n : Int := (digitsVal digs : Int)
      let v : Int := if b = 45 then -n else n
      if v < -(2 ^ 31) || 2 ^ 31 - 1 < v then none else some v

/-- Model of `data.find(',')` followed by the two `substr` calls of
`Store::init`: splits a record body at its first comma; `none` when no
comma occurs (`commaPos == std::string::npos`). -/
def splitAtComma (data : List Nat) : Option (List Nat × List Nat) :=
  let pre := data.takeWhile (fun b => b ≠ 44)
  if pre.length = data.length then none
  else some (pre, data.drop (pre.length + 1))

/-! ### The in-memory index (`HashMap` in the source) -/

/-- `struct MetaData { uint64_t byteOffset; uint64_t byteSize; };` -/
structure MetaData where
  byteOffset : Nat
  byteSize : Nat
deriving DecidableEq

/-- The `HashMap` class: a map from `int` keys to `MetaData` plus the
running write cursor `currByteOffset`. -/
structure HashMap where
  entries : Int → Option MetaData
  currByteOffset : Nat

/-- A `HashMap` with no entries and cursor 0. -/
def HashMap.empty : HashMap :=
  ⟨fun _ => none, 0⟩

/-- `HashMap::add`: `(*this)[key] = { currByteOffset, recordSize };
currByteOffset += recordSize;`. -/
def HashMap.add (m : HashMap) (key : Int) (recordSize : Nat) : HashMap :=
  { entries := fun k => if k = key then some ⟨m.currByteOffset, recordSize⟩ else m.entries k,
    currByteOffset := m.currByteOffset + recordSize }

/-- `HashMap::get`: returns the stored entry, or `{0, 0}` when the key
is absent. -/
def HashMap.get (m : HashMap) (key : Int) : MetaData :=
  match m.entries key with
  | none => ⟨0, 0⟩
  | some md => md

/-! ### Replay (`Store::init`)

`Store::init` reads the existing file with `std::getline(in, data,
DELIMITER)` in a loop.  A file decomposes into the delimiter-terminated
chunks getline yields, plus a trailing run of bytes with no delimiter
(a partial final frame).  `splitChunks` performs that decomposition and
`processChunks` runs the body of the `while (in)` loop on it. -/

/-- Splits a file into its delimiter-terminated chunks (first
component, delimiters removed) and the trailing bytes after the last
delimiter (second component, empty when the file ends in a
delimiter). -/
def splitChunks : List Nat → List (List Nat) × List Nat
  | [] => ([], [])
  | b :: t =>
    if b = 0 then ([] :: (splitChunks t).1, (splitChunks t).2)
    else
      match splitChunks t with
      | ([], tl) => ([], b :: tl)
      | (c :: cs, tl) => ((b :: c) :: cs, tl)

/-- `2 ^ 64`, the modulus of the source's `uint64_t` arithmetic. -/
def M64 : Nat := 2 ^ 64

/-- The parsing part of one loop iteration: split the chunk at its
first comma and run `std::stoi` on the key part.  `none` covers both
skip paths of the source (`commaPos == std::string::npos` and the
`catch (...)` around `std::stoi`), which perform the same state update
(`currentOffset = in.tellg(); continue;`). -/
def parseRecord (c : List Nat) : Option Int :=
  match splitAtComma c with
  | none => none
  | some kv => stoi kv.1

/-- The body of the replay loop of `Store::init`, run over the chunk
decomposition of the file.  `cache` and `off` are the loop's
`cache`/`currentOffset` state, `pos` is the stream position at the
start of the current iteration (`startPos = in.tellg()`).

Per complete chunk: an empty chunk is skipped (`if (data.empty())
continue;`); a chunk with no comma or with a key `std::stoi` rejects is
skipped with `currentOffset = in.tellg();`; otherwise
`recordSize = in.tellg() - startPos` (the chunk plus its delimiter) is
recorded via `cache.add`.

The trailing chunk (if any) is read by a `getline` that hits
end-of-file, after which `in.tellg()` returns `-1` (the eofbit makes
the stream's sentry fail), which the source stores into `uint64_t`
variables: `currentOffset = in.tellg()` yields `2 ^ 64 - 1`, and
`recordSize = in.tellg() - startPos` yields `2 ^ 64 - 1 - startPos`.
The loop exits after that iteration because the stream tests false. -/
def processChunks : List (List Nat) → List Nat → HashMap → Nat → Nat → HashMap × Nat
  | [], [], cache, off, _ => (cache, off)
  | [], b :: t, cache, off, pos =>
    match parseRecord (b :: t) with
    | none => (cache, M64 - 1)
    | some key =>
      let recordSize := M64 - 1 - pos
      (cache.add key recordSize, off + recordSize)
  | c :: cs, tl, cache, off, pos =>
    if c = [] then processChunks cs tl cache off (pos + 1)
    else
      match parseRecord c with
      | none => processChunks cs tl cache (pos + c.length + 1) (pos + c.length + 1)
      | some key =>
        let recordSize := c.length + 1
        processChunks cs tl (cache.add key recordSize) (off + recordSize) (pos + c.length + 1)

/-! ### The `Store` class -/

/-- One log file plus its in-memory state.  `isOpen` is
`store.is_open()` for the append-mode `std::ofstream`; `fileContent`
holds the bytes durably in the file; `totalBytes` exists only in the
multi-file version (the single-file version has no such field and the
model simply carries it along). -/
structure Store where
  isOpen : Bool
  fileContent : List Nat
  cache : HashMap
  totalBytes : Nat

/-- A store over a file that did not yet exist (`Store::init`'s fresh
start: nothing to recover, file opened for append). -/
def Store.mkFresh : Store :=
  ⟨true, [], HashMap.empty, 0⟩

/-- A store built by `Store::init` over an existing file: the replay
loop rebuilds the cache and `totalBytes = currentOffset`; the file
itself is left untouched (the source never truncates it). -/
def Store.recover (bytes : List Nat) : Store :=
  let p := splitChunks bytes
  let r := processChunks p.1 p.2 HashMap.empty 0 0
  ⟨true, bytes, r.1, r.2⟩

/-- `Store::set(int key, const std::string& data, size_t bytes)` of the
multi-file version: fail if the stream is not open; otherwise append
`data`, add `bytes` to `totalBytes`, flush, record the key in the
cache, return true.  The source never inspects the stream state after
`operator<<` or `flush()`, so the return value does not depend on
whether the physical write succeeded; `ioOk` models that environmental
outcome: when it is false the bytes never reach the file, yet the
function still returns true and still updates cache and counters. -/
def Store.set (s : Store) (ioOk : Bool) (key : Int) (data : List Nat) (bytes : Nat) :
    Bool × Store :=
  if s.isOpen then
    (true,
      { isOpen := s.isOpen,
        fileContent := if ioOk then s.fileContent ++ data else s.fileContent,
        cache := s.cache.add key bytes,
        totalBytes := s.totalBytes + bytes })
  else (false, s)

/-- `Store::set(int key, const std::string& value)` of the single-file
version: builds `data = std::to_string(key) + "," + value + DELIMITER`
and appends it, passing `data.size()` to the cache — the same
composition the multi-file `StorageEngine::set` performs before calling
the three-argument `Store::set`.  Stated for a physically succeeding
write. -/
def Store.setKV (s : Store) (key : Int) (value : List Nat) : Bool × Store :=
  s.set true key (frame key value) (frame key value).length

/-- `Store::get`: look the key up in the cache; `byteSize <= 0` means
absent; otherwise open a fresh read handle, `seekg(byteOffset)` and
`getline(in, out, DELIMITER)` — i.e. the bytes from the offset up to
the first delimiter. -/
def Store.get (s : Store) (key : Int) : Option (List Nat) :=
  let md := s.cache.get key
  if md.byteSize ≤ 0 then none
  else some ((s.fileContent.drop md.byteOffset).takeWhile (fun b => b ≠ 0))

/-- Folds a sequence of `(key, value)` writes over a store (each via
`Store.setKV`, with physically succeeding writes). -/
def Store.applyOps (s : Store) (ops : List (Int × List Nat)) : Store :=
  ops.foldl (fun t kv => (t.setKV kv.1 kv.2).2) s

/-- The concatenated frames a sequence of writes appends to the log. -/
def encodeOps (ops : List (Int × List Nat)) : List Nat :=
  (ops.map (fun kv => frame kv.1 kv.2)).flatten

/-! ### The `StorageEngine` class (multi-file version) -/

/-- `MAX_FILE_BYTE_SIZE` of the source. -/
def MAX_FILE_BYTE_SIZE : Nat := 20

/-- The `StorageEngine`: `curr` is `*activeStores.front()`, `older` the
rest of `activeStores` (newest first), `totalFiles` the sequence
counter used to name segment files `<prefix>_<totalFiles>.txt`.  The
unused `archivedStores` / `totalMerged` members are dead state and not
modelled. -/
structure StorageEngine where
  curr : Store
  older : List Store
  totalFiles : Nat

/-- All stores in lookup order (`activeStores`, front first). -/
def StorageEngine.allStores (e : StorageEngine) : List Store :=
  e.curr :: e.older

/-- The `StorageEngine` constructor over the startup filesystem: `fs n`
is the content of segment file number `n` on disk, if it exists.
`init()` clears the store lists and calls `createStore()`, which
increments `totalFiles` from 0 to 1 and constructs a `Store` over
`<prefix>_1.txt` — replaying that file if a previous run left it
behind.  No other existing file is examined (`// todo: upload
history`). -/
def StorageEngine.mkWithDisk (fs : Nat → Option (List Nat)) : StorageEngine :=
  match fs 1 with
  | none => ⟨Store.mkFresh, [], 1⟩
  | some b => ⟨Store.recover b, [], 1⟩

/-- The constructor over a clean directory. -/
def StorageEngine.mkFresh : StorageEngine :=
  ⟨Store.mkFresh, [], 1⟩

/-- `StorageEngine::set`: encode the frame, take a reference to the
front store (`Store& currStore = *activeStores.front();`), rotate by
pushing a new front store when `currStore.getTotalBytes() + bytes >
MAX_FILE_BYTE_SIZE` — and then append through the reference bound
before the rotation, i.e. to the pre-rotation store. -/
def StorageEngine.set (e : StorageEngine) (ioOk : Bool) (key : Int) (value : List Nat) :
    Bool × StorageEngine :=
  let data := frame key value
  let bytes := data.length
  if e.curr.totalBytes + bytes > MAX_FILE_BYTE_SIZE then
    let r := e.curr.set ioOk key data bytes
    (r.1, ⟨Store.mkFresh, r.2 :: e.older, e.totalFiles + 1⟩)
  else
    let r := e.curr.set ioOk key data bytes
    (r.1, ⟨r.2, e.older, e.totalFiles⟩)

/-- `StorageEngine::get`: ask each store in `activeStores` order; the
first hit is returned (`readBuffer.c_str()`), `nullptr` (`none`) if
none hits. -/
def StorageEngine.get (e : StorageEngine) (key : Int) : Option (List Nat) :=
  e.allStores.findSome? (fun s => s.get key)

/-- Folds a sequence of `(key, value)` writes over the engine (each via
`StorageEngine.set`, with physically succeeding writes). -/
def StorageEngine.applyOps (e : StorageEngine) (ops : List (Int × List Nat)) : StorageEngine :=
  ops.foldl (fun t kv => (t.set true kv.1 kv.2).2) e

/-! ### Specification predicates and concrete states used below -/

/-- The per-store well-formedness the engine maintains for every store
it owns: the stream is open and the cache cursor equals the file
length. -/
def StoreWF (s : Store) : Prop :=
  s.isOpen = true ∧ s.cache.currByteOffset = s.fileContent.length

/-- Engine invariant: every store the engine owns is well formed. -/
def EngineWF (e : StorageEngine) : Prop :=
  ∀ s ∈ e.allStores, StoreWF s

/-- No store of the engine has an index entry for `k`. -/
def EngineAbsent (e : StorageEngine) (k : Int) : Prop :=
  ∀ s ∈ e.allStores, s.cache.entries k = none

/-- Every index entry in every store of the engine has a strictly
positive length. -/
def EnginePos (e : StorageEngine) : Prop :=
  ∀ s ∈ e.allStores, ∀ k md, s.cache.entries k = some md → 0 < md.byteSize

/-- A store whose append-mode `std::ofstream` failed to open
(`store.is_open()` is false). -/
def closedStore : Store :=
  ⟨false, [], HashMap.empty, 0⟩

/-! ### List helper lemmas -/

theorem takeWhile_all {α} (p : α → Bool) :
    ∀ l : List α, (∀ a ∈ l, p a = true) → l.takeWhile p = l := by
  intro l h
  induction l with
  | nil => rfl
  | cons x t ih =>
    simp [List.takeWhile_cons, h x (by simp), ih (fun a ha => h a (by simp [ha]))]

theorem takeWhile_append_all {α} (p : α → Bool) (l₁ l₂ : List α)
    (h : ∀ a ∈ l₁, p a = true) :
    (l₁ ++ l₂).takeWhile p = l₁ ++ l₂.takeWhile p := by
  induction l₁ with
  | nil => rfl
  | cons x t ih =>
    simp [List.takeWhile_cons, h x (by simp), ih (fun a ha => h a (by simp [ha]))]

theorem length_takeWhile_le_of_get {α} (p : α → Bool) :
    ∀ (l : List α) (i : Nat) (a : α), l[i]? = some a → p a = false →
      (l.takeWhile p).length ≤ i := by
  intro l
  induction l with
  | nil => intro i a h; simp at h
  | cons x t ih =>
    intro i a h hpa
    cases i with
    | zero =>
      simp only [List.getElem?_cons_zero, Option.some.injEq] at h
      subst h
      rw [List.takeWhile_cons, hpa]
      simp
    | succ j =>
      simp only [List.getElem?_cons_succ] at h
      rw [List.takeWhile_cons]
      cases hpx : p x with
      | true => simpa using Nat.succ_le_succ (ih j a h hpa)
      | false => simp

theorem dropWhile_cons_of_false {α} (p : α → Bool) (x : α) (t : List α)
    (h : p x = false) : (x :: t).dropWhile p = x :: t := by
  rw [List.dropWhile_cons, h]
  simp

/-! ### Codec lemmas -/

theorem decDigitsAux_lt (f : Nat) :
    ∀ n, ∀ d ∈ decDigitsAux f n, d < 10 := by
  induction f with
  | zero => intro n d hd; cases n <;> simp [decDigitsAux] at hd
  | succ g ih =>
    intro n d hd
    cases n with
    | zero => simp [decDigitsAux] at hd
    | succ m =>
      simp only [decDigitsAux, List.mem_append, List.mem_singleton] at hd
      rcases hd with hd | hd
      · exact ih _ d hd
      · subst hd; exact Nat.mod_lt _ (by omega)

theorem decDigitsAux_ne_nil (f m : Nat) :
    decDigitsAux (f + 1) (m + 1) ≠ [] := by
  simp [decDigitsAux]

theorem natToBytes_bounds (n : Nat) :
    ∀ b ∈ natToBytes n, 48 ≤ b ∧ b ≤ 57 := by
  intro b hb
  unfold natToBytes at hb
  by_cases h : n = 0
  · simp [h] at hb; omega
  · simp only [h, if_false, List.mem_map] at hb
    obtain ⟨d, hd, rfl⟩ := hb
    have := decDigitsAux_lt n _ d hd
    omega

theorem natToBytes_ne_nil (n : Nat) : natToBytes n ≠ [] := by
  unfold natToBytes
  by_cases h : n = 0
  · simp [h]
  · obtain ⟨m, rfl⟩ := Nat.exists_eq_succ_of_ne_zero h
    simp [decDigitsAux]

theorem intToBytes_bounds (k : Int) :
    ∀ b ∈ intToBytes k, 45 ≤ b ∧ b ≤ 57 := by
  intro b hb
  unfold intToBytes at hb
  by_cases h : k < 0
  · simp only [h, if_true, List.mem_cons] at hb
    rcases hb with rfl | hb
    · omega
    · have := natToBytes_bounds k.natAbs b hb; omega
  · simp only [h, if_false] at hb
    have := natToBytes_bounds k.natAbs b hb; omega

theorem intToBytes_ne_nil (k : Int) : intToBytes k ≠ [] := by
  unfold intToBytes
  by_cases h : k < 0
  · simp [h]
  · simp [h, natToBytes_ne_nil]

theorem payload_no_zero (k : Int) (v : List Nat) (hv : 0 ∉ v) :
    ∀ b ∈ payload k v, (b ≠ 0 : Bool) = true := by
  intro b hb
  simp only [payload, List.mem_append, List.mem_cons] at hb
  simp only [decide_eq_true_iff]
  rcases hb with hb | rfl | hb
  · have := intToBytes_bounds k b hb; omega
  · omega
  · intro h; subst h; exact hv hb

theorem takeWhile_payload (k : Int) (v G : List Nat) (hv : 0 ∉ v) :
    ((payload k v ++ 0 :: G).takeWhile (fun b => b ≠ 0)) = payload k v := by
  rw [takeWhile_append_all _ _ _ (payload_no_zero k v hv)]
  simp [List.takeWhile_cons]

/-! ### `std::stoi ∘ std::to_string` roundtrip -/

theorem foldl_decDigitsAux (f : Nat) :
    ∀ n a, n ≤ f →
      List.foldl (fun acc b => acc * 10 + (b - 48)) a
          ((decDigitsAux f n).map (fun d => d + 48)) =
        a * 10 ^ (decDigitsAux f n).length + n := by
  induction f with
  | zero =>
    intro n a hn
    interval_cases n
    simp [decDigitsAux]
  | succ g ih =>
    intro n a hn
    cases n with
    | zero => simp [decDigitsAux]
    | succ m =>
      have hdiv : (m + 1) / 10 ≤ g := by
        have := Nat.div_lt_self (Nat.succ_pos m) (by omega : 1 < 10)
        omega
      simp only [decDigitsAux, List.map_append, List.foldl_append, List.length_append,
        List.map_cons, List.map_nil, List.foldl_cons, List.foldl_nil, List.length_cons,
        List.length_nil]
      rw [ih ((m + 1) / 10) a hdiv]
      have hmod : (m + 1) % 10 + 48 - 48 = (m + 1) % 10 := by omega
      rw [hmod]
      have := Nat.div_add_mod (m + 1) 10
      ring_nf
      omega

theorem digitsVal_natToBytes (n : Nat) : digitsVal (natToBytes n) = n := by
  unfold digitsVal natToBytes
  by_cases h : n = 0
  · simp [h]
  · simp only [h, if_false]
    rw [foldl_decDigitsAux n n 0 (Nat.le_refl n)]
    simp

theorem stoi_digits (l : List Nat) (hne : l ≠ [])
    (hd : ∀ b ∈ l, 48 ≤ b ∧ b ≤ 57)
    (hval : (digitsVal l : Int) ≤ 2 ^ 31 - 1) :
    stoi l = some ((digitsVal l : Int)) := by
  obtain ⟨b, t, rfl⟩ := List.exists_cons_of_ne_nil hne
  have hb := hd b (by simp)
  have h1 : (b :: t).dropWhile (fun x => isSpace x) = b :: t :=
    dropWhile_cons_of_false _ b t (by simp [isSpace]; omega)
  have h2 : (b :: t).takeWhile (fun x => isDigit x) = b :: t :=
    takeWhile_all _ (b :: t) (fun a ha => by simp [isDigit]; exact (hd a ha))
  have hb45 : (decide (b = 45) || decide (b = 43)) = false := by
    simp only [Bool.or_eq_false_iff, decide_eq_false_iff_not]
    omega
  have hb45p : ¬(b = 45) := by omega
  simp only [stoi, h1, hb45, Bool.false_eq_true, if_false, h2]
  rw [if_neg (List.cons_ne_nil b t), if_neg hb45p, if_neg]
  simp only [Bool.or_eq_true, decide_eq_true_iff, not_or, not_lt]
  constructor
  · have : (0 : Int) ≤ (digitsVal (b :: t) : Int) := Int.natCast_nonneg _
    omega
  · exact hval

theorem stoi_neg_digits (l : List Nat) (hne : l ≠ [])
    (hd : ∀ b ∈ l, 48 ≤ b ∧ b ≤ 57)
    (hval : -(2 ^ 31) ≤ -((digitsVal l : Int))) :
    stoi (45 :: l) = some (-((digitsVal l : Int))) := by
  obtain ⟨b, t, rfl⟩ := List.exists_cons_of_ne_nil hne
  have h1 : (45 :: b :: t).dropWhile (fun x => isSpace x) = 45 :: b :: t :=
    dropWhile_cons_of_false _ 45 (b :: t) (by simp [isSpace])
  have h2 : (b :: t).takeWhile (fun x => isDigit x) = b :: t :=
    takeWhile_all _ (b :: t) (fun a ha => by simp [isDigit]; exact (hd a ha))
  simp only [stoi, h1, decide_True, Bool.true_or, if_true, h2, eq_self_iff_true]
  rw [if_neg (List.cons_ne_nil b t), if_neg]
  simp only [Bool.or_eq_true, decide_eq_true_iff, not_or, not_lt]
  constructor
  · exact hval
  · have : (0 : Int) ≤ (digitsVal (b :: t) : Int) := Int.natCast_nonneg _
    omega

theorem stoi_intToBytes (k : Int) (hlo : -(2 ^ 31) ≤ k) (hhi : k ≤ 2 ^ 31 - 1) :
    stoi (intToBytes k) = some k := by
  unfold intToBytes
  by_cases h : k < 0
  · simp only [h, if_true]
    have habs : ((k.natAbs : Int)) = -k := by omega
    rw [stoi_neg_digits _ (natToBytes_ne_nil _) (natToBytes_bounds _)]
    · rw [digitsVal_natToBytes, habs]
      simp
    · rw [digitsVal_natToBytes, habs]
      omega
  · simp only [h, if_false]
    have habs : ((k.natAbs : Int)) = k := by omega
    rw [stoi_digits _ (natToBytes_ne_nil _) (natToBytes_bounds _)]
    · rw [digitsVal_natToBytes, habs]
    · rw [digitsVal_natToBytes, habs]
      exact hhi

/-! ### `splitAtComma` lemmas -/

theorem splitAtComma_none (data : List Nat) (h : 44 ∉ data) :
    splitAtComma data = none := by
  unfold splitAtComma
  rw [takeWhile_all _ data (fun a ha => by
    simp only [decide_eq_true_iff]
    intro hc; subst hc; exact h ha)]
  simp

theorem splitAtComma_payload (k : Int) (v : List Nat) :
    splitAtComma (intToBytes k ++ 44 :: v) = some (intToBytes k, v) := by
  unfold splitAtComma
  have hpre : (intToBytes k ++ 44 :: v).takeWhile (fun b => b ≠ 44) = intToBytes k := by
    rw [takeWhile_append_all _ _ _ (fun a ha => by
      simp only [decide_eq_true_iff]
      have := intToBytes_bounds k a ha
      omega)]
    simp [List.takeWhile_cons]
  have hlen : (intToBytes k).length ≠ (intToBytes k ++ 44 :: v).length := by
    simp
  have hdrop : (intToBytes k ++ 44 :: v).drop ((intToBytes k).length + 1) = v := by
    rw [show (intToBytes k).length + 1 = (intToBytes k ++ [44]).length by simp]
    rw [show intToBytes k ++ 44 :: v = (intToBytes k ++ [44]) ++ v by simp]
    exact List.drop_left _ _
  rw [hpre, if_neg hlen, hdrop]

/-! ### `splitChunks` lemmas -/

theorem splitChunks_nil : splitChunks [] = ([], []) := rfl

theorem splitChunks_no_zero (l : List Nat) (h : 0 ∉ l) :
    splitChunks l = ([], l) := by
  induction l with
  | nil => rfl
  | cons b t ih =>
    have hb : b ≠ 0 := fun hc => h (by simp [hc])
    unfold splitChunks
    rw [if_neg hb, ih (fun hc => h (by simp [hc]))]

theorem splitChunks_chunk (c : List Nat) (rest : List Nat) (h : 0 ∉ c) :
    splitChunks (c ++ 0 :: rest) =
      (c :: (splitChunks rest).1, (splitChunks rest).2) := by
  induction c with
  | nil => simp [splitChunks]
  | cons b t ih =>
    have hb : b ≠ 0 := fun hc => h (by simp [hc])
    have iht := ih (fun hc => h (by simp [hc]))
    simp only [List.cons_append, splitChunks, if_neg hb, List.append_eq, iht]

/-! ### `encodeOps` lemmas -/

theorem encodeOps_nil : encodeOps [] = [] := rfl

theorem encodeOps_cons (kv : Int × List Nat) (ops : List (Int × List Nat)) :
    encodeOps (kv :: ops) = frame kv.1 kv.2 ++ encodeOps ops := by
  simp [encodeOps]

theorem encodeOps_append (a b : List (Int × List Nat)) :
    encodeOps (a ++ b) = encodeOps a ++ encodeOps b := by
  simp [encodeOps]

theorem frame_length_pos (k : Int) (v : List Nat) : 0 < (frame k v).length := by
  simp [frame]

theorem frame_eq_payload_append (k : Int) (v : List Nat) (rest : List Nat) :
    frame k v ++ rest = payload k v ++ 0 :: rest := by
  simp [frame]

theorem splitChunks_encodeOps (ops : List (Int × List Nat))
    (hv : ∀ kv ∈ ops, 0 ∉ kv.2) :
    splitChunks (encodeOps ops) =
      (ops.map (fun kv => payload kv.1 kv.2), []) := by
  induction ops with
  | nil => rfl
  | cons kv rest ih =>
    rw [encodeOps_cons, frame_eq_payload_append]
    rw [show payload kv.1 kv.2 ++ 0 :: encodeOps rest
        = payload kv.1 kv.2 ++ 0 :: encodeOps rest from rfl]
    rw [splitChunks_chunk _ _ (fun hc => by
      have := payload_no_zero kv.1 kv.2 (hv kv (by simp)) 0 hc
      simp at this)]
    rw [ih (fun x hx => hv x (by simp [hx]))]
    simp

theorem encodeOps_ends_zero (ops : List (Int × List Nat)) (h : ops ≠ []) :
    ∃ P, encodeOps ops = P ++ [0] := by
  induction ops with
  | nil => exact absurd rfl h
  | cons kv rest ih =>
    cases rest with
    | nil =>
      refine ⟨payload kv.1 kv.2, ?_⟩
      simp [encodeOps, frame]
    | cons kv2 rest2 =>
      obtain ⟨P, hP⟩ := ih (by simp)
      refine ⟨frame kv.1 kv.2 ++ P, ?_⟩
      rw [encodeOps_cons, hP]
      simp

/-! ### `parseRecord` lemmas -/

theorem parseRecord_no_comma (c : List Nat) (h : 44 ∉ c) : parseRecord c = none := by
  unfold parseRecord
  rw [splitAtComma_none c h]

theorem parseRecord_payload (k : Int) (v : List Nat)
    (hlo : -(2 ^ 31) ≤ k) (hhi : k ≤ 2 ^ 31 - 1) :
    parseRecord (intToBytes k ++ 44 :: v) = some k := by
  unfold parseRecord
  rw [splitAtComma_payload]
  exact stoi_intToBytes k hlo hhi

/-! ### `processChunks` lemmas -/

/-- When the file has no trailing partial chunk, the cache built by the
replay loop does not depend on the stream position or the
`currentOffset` accumulator. -/
theorem processChunks_cache_pos_indep (cs : List (List Nat)) :
    ∀ cache off₁ pos₁ off₂ pos₂,
      (processChunks cs [] cache off₁ pos₁).1 = (processChunks cs [] cache off₂ pos₂).1 := by
  induction cs with
  | nil => intro cache o1 p1 o2 p2; rfl
  | cons c cs ih =>
    intro cache o1 p1 o2 p2
    by_cases hc : c = []
    · simp only [processChunks, if_pos hc]
      exact ih cache o1 (p1 + 1) o2 (p2 + 1)
    · cases hp : parseRecord c with
      | none =>
        simp only [processChunks, if_neg hc, hp]
        exact ih cache (p1 + c.length + 1) (p1 + c.length + 1)
          (p2 + c.length + 1) (p2 + c.length + 1)
      | some key =>
        simp only [processChunks, if_neg hc, hp]
        exact ih (cache.add key (c.length + 1)) (o1 + (c.length + 1)) (p1 + c.length + 1)
          (o2 + (c.length + 1)) (p2 + c.length + 1)

/-- Replaying a list of well-formed record chunks performs exactly the
writer's sequence of `cache.add` calls. -/
theorem processChunks_payloads (ops : List (Int × List Nat)) :
    ∀ cache off pos,
      (∀ kv ∈ ops, -(2 ^ 31) ≤ kv.1 ∧ kv.1 ≤ 2 ^ 31 - 1) →
      (processChunks (ops.map (fun kv => payload kv.1 kv.2)) [] cache off pos).1 =
        ops.foldl (fun c kv => c.add kv.1 (frame kv.1 kv.2).length) cache := by
  induction ops with
  | nil => intro cache off pos _; rfl
  | cons kv rest ih =>
    intro cache off pos hk
    have hkv := hk kv (by simp)
    have hpay : payload kv.1 kv.2 = intToBytes kv.1 ++ 44 :: kv.2 := rfl
    have hne : intToBytes kv.1 ++ 44 :: kv.2 ≠ [] := by simp
    have hlen : (intToBytes kv.1 ++ 44 :: kv.2).length + 1 = (frame kv.1 kv.2).length := by
      simp [frame, payload]
      omega
    simp only [List.map_cons, hpay, processChunks, if_neg hne,
      parseRecord_payload kv.1 kv.2 hkv.1 hkv.2, List.foldl_cons]
    rw [hlen]
    exact ih (cache.add kv.1 (frame kv.1 kv.2).length) (off + (frame kv.1 kv.2).length)
      (pos + (intToBytes kv.1 ++ 44 :: kv.2).length + 1) (fun x hx => hk x (by simp [hx]))

/-- Skipping lemma: a leading undecodable chunk (no comma) leaves the
replayed cache exactly as if its bytes were absent, provided the rest
of the file ends at a record boundary. -/
theorem recover_skip_bad (bad rest : List Nat) (h1 : bad ≠ []) (h2 : 0 ∉ bad)
    (h3 : 44 ∉ bad) (h4 : (splitChunks rest).2 = []) :
    (Store.recover (bad ++ 0 :: rest)).cache = (Store.recover rest).cache := by
  unfold Store.recover
  simp only [splitChunks_chunk bad rest h2, h4]
  simp only [processChunks, if_neg h1, parseRecord_no_comma bad h3]
  exact processChunks_cache_pos_indep _ _ _ _ _ _

/-! ### `Store.set` / `Store.setKV` / `Store.get` lemmas -/

theorem Store.set_closed (s : Store) (io : Bool) (k : Int) (d : List Nat) (b : Nat)
    (h : s.isOpen = false) : s.set io k d b = (false, s) := by
  unfold Store.set
  rw [h]
  simp

theorem Store.set_fst (s : Store) (io : Bool) (k : Int) (d : List Nat) (b : Nat) :
    (s.set io k d b).1 = s.isOpen := by
  unfold Store.set
  cases h : s.isOpen <;> simp

theorem Store.setKV_open (s : Store) (k : Int) (v : List Nat) (h : s.isOpen = true) :
    (s.setKV k v) =
      (true,
        { isOpen := true,
          fileContent := s.fileContent ++ frame k v,
          cache := s.cache.add k (frame k v).length,
          totalBytes := s.totalBytes + (frame k v).length }) := by
  unfold Store.setKV Store.set
  rw [h]
  simp

theorem HashMap.add_entries_self (m : HashMap) (k : Int) (n : Nat) :
    (m.add k n).entries k = some ⟨m.currByteOffset, n⟩ := by
  simp [HashMap.add]

theorem HashMap.add_entries_other (m : HashMap) (k k₂ : Int) (n : Nat) (h : k ≠ k₂) :
    (m.add k₂ n).entries k = m.entries k := by
  simp [HashMap.add, h]

/-- Reading a key whose index entry points at a frame actually present
at that offset returns the frame's payload (the bytes up to the first
delimiter). -/
theorem Store.get_frame (s : Store) (k : Int) (v F G : List Nat)
    (hfile : s.fileContent = F ++ frame k v ++ G)
    (hent : s.cache.entries k = some ⟨F.length, (frame k v).length⟩)
    (hv : 0 ∉ v) :
    s.get k = some (payload k v) := by
  unfold Store.get HashMap.get
  rw [hent]
  simp only []
  rw [if_neg (by have := frame_length_pos k v; omega)]
  congr 1
  rw [hfile, List.append_assoc, List.drop_left]
  rw [show frame k v ++ G = payload k v ++ 0 :: G from by simp [frame]]
  exact takeWhile_payload k v G hv

/-! ### `Store.applyOps` trace lemmas -/

theorem Store.applyOps_nil (s : Store) : s.applyOps [] = s := rfl

theorem Store.applyOps_cons (s : Store) (kv : Int × List Nat) (ops : List (Int × List Nat)) :
    s.applyOps (kv :: ops) = ((s.setKV kv.1 kv.2).2).applyOps ops := rfl

theorem Store.applyOps_append (s : Store) (a b : List (Int × List Nat)) :
    s.applyOps (a ++ b) = (s.applyOps a).applyOps b := by
  simp [Store.applyOps, List.foldl_append]

theorem Store.applyOps_state (ops : List (Int × List Nat)) :
    ∀ s : Store, s.isOpen = true →
      (s.applyOps ops).isOpen = true ∧
      (s.applyOps ops).fileContent = s.fileContent ++ encodeOps ops ∧
      ((s.applyOps ops).cache.currByteOffset =
        s.cache.currByteOffset + (encodeOps ops).length) := by
  induction ops with
  | nil => intro s h; simp [Store.applyOps_nil, h, encodeOps_nil]
  | cons kv rest ih =>
    intro s h
    rw [Store.applyOps_cons]
    have hset := Store.setKV_open s kv.1 kv.2 h
    have := ih (s.setKV kv.1 kv.2).2 (by rw [hset])
    rw [hset] at this ⊢
    obtain ⟨ho, hf, hc⟩ := this
    refine ⟨ho, ?_, ?_⟩
    · rw [hf, encodeOps_cons]
      simp
    · rw [hc, encodeOps_cons]
      simp [HashMap.add]
      omega

theorem Store.applyOps_entries_skip (ops : List (Int × List Nat)) (k : Int)
    (h : k ∉ ops.map Prod.fst) :
    ∀ s : Store, (s.applyOps ops).cache.entries k = s.cache.entries k := by
  induction ops with
  | nil => intro s; rfl
  | cons kv rest ih =>
    intro s
    have h2 := h
    simp only [List.map_cons, List.mem_cons, not_or] at h2
    rw [Store.applyOps_cons, ih h2.2]
    by_cases ho : s.isOpen
    · rw [Store.setKV_open s kv.1 kv.2 ho]
      simp only []
      exact HashMap.add_entries_other _ _ _ _ h2.1
    · rw [show s.setKV kv.1 kv.2
            = s.set true kv.1 (frame kv.1 kv.2) (frame kv.1 kv.2).length from rfl,
        Store.set_closed s true kv.1 _ _ (by simpa using ho)]

/-- The combined trace fact behind round-trip reads: in a fresh store
written with `pre ++ (k, v) :: post` where `post` never writes `k`
again, the file holds exactly the concatenated frames and the index
entry for `k` locates `k`'s frame precisely. -/
theorem Store.applyOps_locates (pre post : List (Int × List Nat)) (k : Int) (v : List Nat)
    (hpost : k ∉ post.map Prod.fst) :
    (Store.mkFresh.applyOps (pre ++ (k, v) :: post)).fileContent
        = encodeOps pre ++ frame k v ++ encodeOps post ∧
      (Store.mkFresh.applyOps (pre ++ (k, v) :: post)).cache.entries k
        = some ⟨(encodeOps pre).length, (frame k v).length⟩ ∧
      (Store.mkFresh.applyOps (pre ++ (k, v) :: post)).isOpen = true := by
  obtain ⟨ho1, hf1, hc1⟩ := Store.applyOps_state pre Store.mkFresh rfl
  have hs1 : (Store.mkFresh.applyOps pre).cache.currByteOffset = (encodeOps pre).length := by
    rw [hc1]; simp [Store.mkFresh, HashMap.empty]
  have hset := Store.setKV_open (Store.mkFresh.applyOps pre) k v ho1
  rw [Store.applyOps_append, show ((k, v) :: post) = [(k, v)] ++ post from rfl,
    Store.applyOps_append]
  rw [show (Store.mkFresh.applyOps pre).applyOps [(k, v)]
      = ((Store.mkFresh.applyOps pre).setKV k v).2 from rfl]
  rw [hset]
  set s2 : Store :=
    { isOpen := true,
      fileContent := (Store.mkFresh.applyOps pre).fileContent ++ frame k v,
      cache := (Store.mkFresh.applyOps pre).cache.add k (frame k v).length,
      totalBytes := (Store.mkFresh.applyOps pre).totalBytes + (frame k v).length } with hs2
  obtain ⟨ho3, hf3, hc3⟩ := Store.applyOps_state post s2 rfl
  refine ⟨?_, ?_, ho3⟩
  · rw [hf3, hs2]
    simp only []
    rw [hf1]
    simp [Store.mkFresh]
  · rw [Store.applyOps_entries_skip post k hpost s2, hs2]
    simp only []
    rw [HashMap.add_entries_self, hs1]

/-! ### `StorageEngine` lemmas -/

theorem storeWF_mkFresh : StoreWF Store.mkFresh :=
  ⟨rfl, rfl⟩

theorem storeWF_setKV (s : Store) (k : Int) (v : List Nat) (h : StoreWF s) :
    StoreWF (s.setKV k v).2 := by
  rw [Store.setKV_open s k v h.1]
  refine ⟨rfl, ?_⟩
  simp [HashMap.add, h.2]

/-- Reading back the key just written: the freshly appended frame is at
the end of the file and the new index entry points exactly at it. -/
theorem Store.setKV_get_self (s : Store) (k : Int) (v : List Nat)
    (h : StoreWF s) (hv : 0 ∉ v) :
    ((s.setKV k v).2).get k = some (payload k v) := by
  rw [Store.setKV_open s k v h.1]
  apply Store.get_frame _ k v s.fileContent []
  · simp
  · simp only []
    rw [HashMap.add_entries_self, h.2]
  · exact hv

theorem engineWF_mkFresh : EngineWF StorageEngine.mkFresh := by
  intro s hs
  simp only [StorageEngine.mkFresh, StorageEngine.allStores, List.mem_singleton] at hs
  rw [hs]
  exact storeWF_mkFresh

/-- `StorageEngine.set` (with a physically succeeding write) rewrites
the engine as follows: either no rotation happens and the front store
absorbs the write, or a fresh store is pushed to the front and the
pre-rotation store (now second) absorbs the write. -/
theorem StorageEngine.set_spec (e : StorageEngine) (k : Int) (v : List Nat) :
    e.set true k v =
      (if e.curr.totalBytes + (frame k v).length > MAX_FILE_BYTE_SIZE then
        ((e.curr.setKV k v).1,
          ⟨Store.mkFresh, (e.curr.setKV k v).2 :: e.older, e.totalFiles + 1⟩)
      else
        ((e.curr.setKV k v).1, ⟨(e.curr.setKV k v).2, e.older, e.totalFiles⟩)) := by
  unfold StorageEngine.set Store.setKV
  by_cases h : e.curr.totalBytes + (frame k v).length > MAX_FILE_BYTE_SIZE
  · simp only [if_pos h]
  · simp only [if_neg h]

theorem engineWF_set (e : StorageEngine) (k : Int) (v : List Nat) (h : EngineWF e) :
    EngineWF ((e.set true k v).2) := by
  have hcurr := h e.curr (by simp [StorageEngine.allStores])
  rw [StorageEngine.set_spec]
  by_cases hrot : e.curr.totalBytes + (frame k v).length > MAX_FILE_BYTE_SIZE
  · rw [if_pos hrot]
    intro s hs
    simp only [StorageEngine.allStores, List.mem_cons] at hs
    rcases hs with rfl | rfl | hs
    · exact storeWF_mkFresh
    · exact storeWF_setKV _ k v hcurr
    · exact h s (by simp [StorageEngine.allStores, hs])
  · rw [if_neg hrot]
    intro s hs
    simp only [StorageEngine.allStores, List.mem_cons] at hs
    rcases hs with rfl | hs
    · exact storeWF_setKV _ k v hcurr
    · exact h s (by simp [StorageEngine.allStores, hs])

theorem engineWF_applyOps (ops : List (Int × List Nat)) :
    ∀ e, EngineWF e → EngineWF (e.applyOps ops) := by
  induction ops with
  | nil => intro e h; exact h
  | cons kv rest ih =>
    intro e h
    exact ih _ (engineWF_set e kv.1 kv.2 h)

/-- A fresh store never answers a lookup. -/
theorem Store.mkFresh_get (k : Int) : Store.mkFresh.get k = none := rfl

/-- After a write through the engine, looking the key up returns the
payload of the frame just written, regardless of whether the write
triggered a rotation. -/
theorem StorageEngine.set_get_self (e : StorageEngine) (k : Int) (v : List Nat)
    (h : EngineWF e) (hv : 0 ∉ v) :
    ((e.set true k v).2).get k = some (payload k v) := by
  have hcurr := h e.curr (by simp [StorageEngine.allStores])
  have hread := Store.setKV_get_self e.curr k v hcurr hv
  rw [StorageEngine.set_spec]
  by_cases hrot : e.curr.totalBytes + (frame k v).length > MAX_FILE_BYTE_SIZE
  · rw [if_pos hrot]
    unfold StorageEngine.get StorageEngine.allStores
    simp only [List.findSome?_cons, Store.mkFresh_get, hread]
  · rw [if_neg hrot]
    unfold StorageEngine.get StorageEngine.allStores
    simp only [List.findSome?_cons, hread]

/-! ### Replay reconstructs the writer's index on well-formed files -/

theorem Store.applyOps_cache (ops : List (Int × List Nat)) :
    ∀ s : Store, s.isOpen = true →
      (s.applyOps ops).cache =
        ops.foldl (fun c kv => c.add kv.1 (frame kv.1 kv.2).length) s.cache := by
  induction ops with
  | nil => intro s _; rfl
  | cons kv rest ih =>
    intro s h
    rw [Store.applyOps_cons, Store.setKV_open s kv.1 kv.2 h] at *
    rw [ih _ rfl]
    rfl

/-- Replaying the exact bytes a write sequence appended to a fresh file
rebuilds exactly the writer's in-memory index. -/
theorem recover_encodeOps (ops : List (Int × List Nat))
    (hv : ∀ kv ∈ ops, 0 ∉ kv.2)
    (hk : ∀ kv ∈ ops, -(2 ^ 31) ≤ kv.1 ∧ kv.1 ≤ 2 ^ 31 - 1) :
    (Store.recover (encodeOps ops)).cache = (Store.mkFresh.applyOps ops).cache := by
  unfold Store.recover
  simp only [splitChunks_encodeOps ops hv]
  rw [processChunks_payloads ops HashMap.empty 0 0 hk,
    Store.applyOps_cache ops Store.mkFresh rfl]
  rfl

/-! ### Never-written keys and entry sizes (engine reachable states) -/

theorem engineAbsent_mkFresh (k : Int) : EngineAbsent StorageEngine.mkFresh k := by
  intro s hs
  simp only [StorageEngine.mkFresh, StorageEngine.allStores, List.mem_singleton] at hs
  rw [hs]
  rfl

theorem enginePos_mkFresh : EnginePos StorageEngine.mkFresh := by
  intro s hs k md h
  simp only [StorageEngine.mkFresh, StorageEngine.allStores, List.mem_singleton] at hs
  rw [hs] at h
  exact absurd h (by simp [Store.mkFresh, HashMap.empty])

theorem engineAbsent_set (e : StorageEngine) (k k₂ : Int) (v : List Nat)
    (hne : k ≠ k₂) (h : EngineAbsent e k) : EngineAbsent ((e.set true k₂ v).2) k := by
  have hcurr : ∀ io, ((e.curr.set io k₂ (frame k₂ v) (frame k₂ v).length).2).cache.entries k
      = none := by
    intro io
    unfold Store.set
    by_cases ho : e.curr.isOpen
    · rw [if_pos ho]
      simp only []
      rw [HashMap.add_entries_other _ _ _ _ hne]
      exact h e.curr (by simp [StorageEngine.allStores])
    · rw [if_neg ho]
      exact h e.curr (by simp [StorageEngine.allStores])
  rw [StorageEngine.set_spec]
  by_cases hrot : e.curr.totalBytes + (frame k₂ v).length > MAX_FILE_BYTE_SIZE
  · rw [if_pos hrot]
    intro s hs
    simp only [StorageEngine.allStores, List.mem_cons] at hs
    rcases hs with rfl | rfl | hs
    · rfl
    · exact hcurr true
    · exact h s (by simp [StorageEngine.allStores, hs])
  · rw [if_neg hrot]
    intro s hs
    simp only [StorageEngine.allStores, List.mem_cons] at hs
    rcases hs with rfl | hs
    · exact hcurr true
    · exact h s (by simp [StorageEngine.allStores, hs])

theorem enginePos_set (e : StorageEngine) (k₂ : Int) (v : List Nat)
    (h : EnginePos e) : EnginePos ((e.set true k₂ v).2) := by
  have hcurr : ∀ k md,
      ((e.curr.set true k₂ (frame k₂ v) (frame k₂ v).length).2).cache.entries k = some md →
      0 < md.byteSize := by
    intro k md hmd
    unfold Store.set at hmd
    by_cases ho : e.curr.isOpen
    · rw [if_pos ho] at hmd
      simp only [HashMap.add] at hmd
      by_cases hk : k = k₂
      · rw [if_pos hk] at hmd
        cases hmd
        exact frame_length_pos k₂ v
      · rw [if_neg hk] at hmd
        exact h e.curr (by simp [StorageEngine.allStores]) k md hmd
    · rw [if_neg ho] at hmd
      exact h e.curr (by simp [StorageEngine.allStores]) k md hmd
  rw [StorageEngine.set_spec]
  by_cases hrot : e.curr.totalBytes + (frame k₂ v).length > MAX_FILE_BYTE_SIZE
  · rw [if_pos hrot]
    intro s hs
    simp only [StorageEngine.allStores, List.mem_cons] at hs
    rcases hs with rfl | rfl | hs
    · intro k md hmd
      exact absurd hmd (by simp [Store.mkFresh, HashMap.empty])
    · exact hcurr
    · exact h s (by simp [StorageEngine.allStores, hs])
  · rw [if_neg hrot]
    intro s hs
    simp only [StorageEngine.allStores, List.mem_cons] at hs
    rcases hs with rfl | hs
    · exact hcurr
    · exact h s (by simp [StorageEngine.allStores, hs])

theorem engineAbsent_applyOps (ops : List (Int × List Nat)) (k : Int)
    (hk : k ∉ ops.map Prod.fst) :
    ∀ e, EngineAbsent e k → EngineAbsent (e.applyOps ops) k := by
  induction ops with
  | nil => intro e h; exact h
  | cons kv rest ih =>
    intro e h
    have h2 := hk
    simp only [List.map_cons, List.mem_cons, not_or] at h2
    exact ih h2.2 _ (engineAbsent_set e k kv.1 kv.2 h2.1 h)

theorem enginePos_applyOps (ops : List (Int × List Nat)) :
    ∀ e, EnginePos e → EnginePos (e.applyOps ops) := by
  induction ops with
  | nil => intro e h; exact h
  | cons kv rest ih =>
    intro e h
    exact ih _ (enginePos_set e kv.1 kv.2 h)

/-- A store with no entry for `k` reports `k` as not found. -/
theorem Store.get_of_entries_none (s : Store) (k : Int) (h : s.cache.entries k = none) :
    s.get k = none := by
  unfold Store.get HashMap.get
  rw [h]
  rfl

theorem StorageEngine.get_none_of_absent (e : StorageEngine) (k : Int) (h : EngineAbsent e k) :
    e.get k = none := by
  unfold StorageEngine.get
  rw [List.findSome?_eq_none_iff]
  intro s hs
  exact Store.get_of_entries_none s k (h s hs)

/-- In the file `bad ++ 0 :: (Epre ++ R)` there is a delimiter byte at
some position `Epre.length + j` with `j ≤ bad.length`: either the
delimiter after `bad` itself, or the final delimiter of `Epre`. -/
theorem zero_in_window (bad Epre R : List Nat)
    (hEpre : Epre ≠ [] → ∃ P, Epre = P ++ [0]) :
    ∃ j, j ≤ bad.length ∧ (bad ++ 0 :: (Epre ++ R))[Epre.length + j]? = some 0 := by
  by_cases ho : Epre.length ≤ bad.length
  · refine ⟨bad.length - Epre.length, by omega, ?_⟩
    have heq : Epre.length + (bad.length - Epre.length) = bad.length := by omega
    rw [heq, List.getElem?_append_right (le_refl bad.length)]
    simp
  · have hne : Epre ≠ [] := by
      intro hc; rw [hc] at ho; simp at ho
    obtain ⟨P, hP⟩ := hEpre hne
    refine ⟨bad.length, le_refl _, ?_⟩
    rw [List.getElem?_append_right (by omega : bad.length ≤ Epre.length + bad.length)]
    have h2 : Epre.length + bad.length - bad.length = Epre.length := by omega
    rw [h2]
    obtain ⟨m, hm⟩ : ∃ m, Epre.length = m + 1 := by
      have : 0 < Epre.length := List.length_pos.mpr hne
      exact ⟨Epre.length - 1, by omega⟩
    have hPm : m = P.length := by
      rw [hP] at hm; simp at hm; omega
    rw [hm, List.getElem?_cons_succ, List.getElem?_append_left (by omega : m < Epre.length),
      hP, hPm, List.getElem?_append_right (le_refl P.length)]
    simp

/-! ## Claim theorems -/

/-- Claim C1 (code bug): the spec says a `put` that would exceed the
rotation threshold first creates a new active segment and then appends
there, never mutating the sealed segment.  The code instead binds
`Store& currStore = *activeStores.front()` before rotating, so the
record is appended to the pre-rotation store.  Evaluated at the failing
input (fresh engine, one 21-byte record against the 20-byte threshold):
the write reports success, a second segment file is created, the new
active segment stays empty, and the sealed (pre-rotation) segment
receives the frame, growing to 21 bytes — past the threshold. -/
theorem claim_C1_rotation_misdirected_append :
    (StorageEngine.mkFresh.set true 1 (List.replicate 18 97)).1 = true ∧
      (StorageEngine.mkFresh.set true 1 (List.replicate 18 97)).2.totalFiles = 2 ∧
      (StorageEngine.mkFresh.set true 1 (List.replicate 18 97)).2.curr.fileContent = [] ∧
      (StorageEngine.mkFresh.set true 1 (List.replicate 18 97)).2.older.map Store.fileContent
        = [frame 1 (List.replicate 18 97)] ∧
      (StorageEngine.mkFresh.set true 1 (List.replicate 18 97)).2.older.map Store.totalBytes
        = [21] ∧
      MAX_FILE_BYTE_SIZE < 21 := by
  decide

/-- Claim C2, counterexample to the claim as stated: after
`Put(11, "11")` on a fresh store (the single-file demo), `Get(11)`
returns the bytes `"11,11"` — the whole frame up to the delimiter —
and not the written value `"11"`. -/
theorem claim_C2_counterexample :
    (Store.mkFresh.setKV 11 [49, 49]).2.get 11 = some [49, 49, 44, 49, 49] ∧
      (Store.mkFresh.setKV 11 [49, 49]).2.get 11 ≠ some [49, 49] := by
  decide

/-- Claim C2, amended: if `Put(key, value)` succeeds on a fresh store
and no later `Put` writes the same key, and the value contains no
delimiter byte, then `Get(key)` finds the key (found = true) and
returns the record's payload `ASCII(key) ++ "," ++ value` — the frame
bytes up to the delimiter, which include the key prefix, not the bare
value. -/
theorem claim_C2_amended (pre post : List (Int × List Nat)) (k : Int) (v : List Nat)
    (hpost : k ∉ post.map Prod.fst) (hv : 0 ∉ v) :
    ((Store.mkFresh.applyOps pre).setKV k v).1 = true ∧
      (Store.mkFresh.applyOps (pre ++ (k, v) :: post)).get k = some (payload k v) := by
  obtain ⟨ho1, _, _⟩ := Store.applyOps_state pre Store.mkFresh rfl
  obtain ⟨hfile, hent, _⟩ := Store.applyOps_locates pre post k v hpost
  constructor
  · rw [show (Store.mkFresh.applyOps pre).setKV k v
        = (Store.mkFresh.applyOps pre).set true k (frame k v) (frame k v).length from rfl,
      Store.set_fst, ho1]
  · exact Store.get_frame _ k v (encodeOps pre) (encodeOps post) hfile hent hv

/-- Witness for C2 at a concrete input: write key 11 then key 2; the
read of key 11 succeeds and returns `"11,11"`. -/
theorem claim_C2_witness :
    ((Store.mkFresh.applyOps []).setKV 11 [49, 49]).1 = true ∧
      (Store.mkFresh.applyOps ([] ++ (11, [49, 49]) :: [(2, [98])])).get 11
        = some (payload 11 [49, 49]) :=
  claim_C2_amended [] [(2, [98])] 11 [49, 49] (by decide) (by decide)

/-- Claim C3, counterexample to the claim as stated: replaying the file
`"xx\0" ++ "1,a\0"` does not stop at the undecodable first record — the
later record for key 1 is indexed (at the misaligned offset 0) — and
the file is not truncated. -/
theorem claim_C3_counterexample :
    (Store.recover [120, 120, 0, 49, 44, 97, 0]).cache.entries 1 = some ⟨0, 4⟩ ∧
      (Store.recover [120, 120, 0, 49, 44, 97, 0]).fileContent
        = [120, 120, 0, 49, 44, 97, 0] := by
  decide

/-- Claim C3, amended: replay skips an undecodable record and keeps
scanning; for a file whose remainder ends at a record boundary, the
index it builds is exactly the index of the file with the skipped bytes
absent (offsets are not advanced past them), and the file is never
truncated. -/
theorem claim_C3_amended (bad rest : List Nat) (h1 : bad ≠ []) (h2 : 0 ∉ bad)
    (h3 : 44 ∉ bad) (h4 : (splitChunks rest).2 = []) :
    (∀ k, (Store.recover (bad ++ 0 :: rest)).cache.entries k
        = (Store.recover rest).cache.entries k) ∧
      (Store.recover (bad ++ 0 :: rest)).fileContent = bad ++ 0 :: rest := by
  refine ⟨fun k => ?_, rfl⟩
  rw [recover_skip_bad bad rest h1 h2 h3 h4]

/-- Witness for C3 at a concrete input. -/
theorem claim_C3_witness :
    (Store.recover ([120, 120] ++ 0 :: [49, 44, 97, 0])).cache.entries 1
        = (Store.recover [49, 44, 97, 0]).cache.entries 1 :=
  (claim_C3_amended [120, 120] [49, 44, 97, 0] (by decide) (by decide) (by decide)
    (by decide)).1 1

/-- Claim C4, counterexample to the claim as stated: a `set` whose
physical write and flush fail (modelled by `ioOk = false`) still
returns true, and still records the index entry, although no byte
reached the file — the source never inspects the stream state after
`operator<<` or `flush()`. -/
theorem claim_C4_counterexample :
    (Store.mkFresh.set false 5 (frame 5 [97]) (frame 5 [97]).length).1 = true ∧
      (Store.mkFresh.set false 5 (frame 5 [97]) (frame 5 [97]).length).2.fileContent = [] ∧
      (Store.mkFresh.set false 5 (frame 5 [97]) (frame 5 [97]).length).2.cache.entries 5
        = some ⟨0, 4⟩ := by
  decide

/-- Claim C4, amended: `set` returns true iff the output stream is
open — the outcome of the write and flush is not checked — and in the
only failure case (stream not open) the store state, including cursor
and index, is left unchanged. -/
theorem claim_C4_amended (s : Store) (io : Bool) (k : Int) (d : List Nat) (b : Nat) :
    (s.set io k d b).1 = s.isOpen ∧
      (s.isOpen = false → s.set io k d b = (false, s)) :=
  ⟨Store.set_fst s io k d b, fun h => Store.set_closed s io k d b h⟩

/-- Witness for C4 at a concrete input: a store whose file never
opened refuses the write and is unchanged. -/
theorem claim_C4_witness :
    (closedStore.set true 5 (frame 5 [97]) 4).1 = closedStore.isOpen ∧
      closedStore.set true 5 (frame 5 [97]) 4 = (false, closedStore) := by
  have h := claim_C4_amended closedStore true 5 (frame 5 [97]) 4
  exact ⟨h.1, h.2 rfl⟩

/-- Claim C5 (code bug): the spec requires the next segment sequence
number to be derived from the maximum sequence found on disk at
startup.  The constructor instead initialises `totalFiles` to 0 and the
single `createStore()` call bumps it to 1, so for every startup
filesystem — including one already holding segment files from earlier
runs — the engine restarts the sequence at 1 (reusing the
`<prefix>_1.txt` name) and adopts only that one store. -/
theorem claim_C5_sequence_reset (fs : Nat → Option (List Nat)) :
    (StorageEngine.mkWithDisk fs).totalFiles = 1 ∧
      (StorageEngine.mkWithDisk fs).older = [] := by
  unfold StorageEngine.mkWithDisk
  cases fs 1 <;> exact ⟨rfl, rfl⟩

/-- Claim C6, counterexample to the claim as stated: running the
spec's own scenario `Put(11,"11"); Put(12,"12-1"); Put(12,"12-2")` on a
fresh engine, `Get(12)` does resolve to the newest record but returns
its whole payload `"12,12-2"`, not the bare value `"12-2"`. -/
theorem claim_C6_counterexample :
    ((((StorageEngine.mkFresh.set true 11 [49, 49]).2.set true 12 [49, 50, 45, 49]).2.set
        true 12 [49, 50, 45, 50]).2.get 12 = some (payload 12 [49, 50, 45, 50])) ∧
      ((((StorageEngine.mkFresh.set true 11 [49, 49]).2.set true 12 [49, 50, 45, 49]).2.set
        true 12 [49, 50, 45, 50]).2.get 12 ≠ some [49, 50, 45, 50]) := by
  decide

/-- Claim C6, amended: for every prior write history and every key K,
after `Put(K, v1); Put(K, v2)` (with `v2` free of the delimiter byte)
the engine's `Get(K)` finds the later write — the newer record
supersedes the older both inside one segment's index and across the
newest-first segment lookup, including when the second `Put` triggers a
rotation — but it returns the record payload `ASCII(K) ++ "," ++ v2`,
not the bare `v2`. -/
theorem claim_C6_amended (ops : List (Int × List Nat)) (K : Int) (v1 v2 : List Nat)
    (hv : 0 ∉ v2) :
    (((StorageEngine.mkFresh.applyOps ops).set true K v1).2.set true K v2).2.get K
      = some (payload K v2) := by
  have h1 : EngineWF (StorageEngine.mkFresh.applyOps ops) :=
    engineWF_applyOps ops _ engineWF_mkFresh
  have h2 : EngineWF ((StorageEngine.mkFresh.applyOps ops).set true K v1).2 :=
    engineWF_set _ K v1 h1
  exact StorageEngine.set_get_self _ K v2 h2 hv

/-- Witness for C6 at the spec's concrete scenario keys. -/
theorem claim_C6_witness :
    (((StorageEngine.mkFresh.applyOps []).set true 12 [49, 50, 45, 49]).2.set true 12
        [49, 50, 45, 50]).2.get 12 = some (payload 12 [49, 50, 45, 50]) :=
  claim_C6_amended [] 12 [49, 50, 45, 49] [49, 50, 45, 50] (by decide)

/-- Claim C7: replaying a file that starts with a malformed record
(`bad`, non-empty, no comma, no delimiter byte) followed by well-formed
records leaves the replay cursor unadvanced over the skipped bytes.
For any record `(k, v)` among the well-formed ones (not overwritten
later): its true position in the file is
`bad.length + 1 + (encodeOps pre).length`, but the Index Entry records
offset `(encodeOps pre).length` — strictly smaller — and the subsequent
read of `k` returns bytes that end strictly before the record's true
position, i.e. bytes belonging to different records. -/
theorem claim_C7_offset_misalignment
    (bad : List Nat) (pre post : List (Int × List Nat)) (k : Int) (v : List Nat)
    (hb1 : bad ≠ []) (hb2 : 0 ∉ bad) (hb3 : 44 ∉ bad)
    (hv : ∀ kv ∈ pre ++ (k, v) :: post, 0 ∉ kv.2)
    (hk : ∀ kv ∈ pre ++ (k, v) :: post, -(2 ^ 31) ≤ kv.1 ∧ kv.1 ≤ 2 ^ 31 - 1)
    (hlast : k ∉ post.map Prod.fst) :
    (Store.recover (bad ++ 0 :: encodeOps (pre ++ (k, v) :: post))).cache.entries k
        = some ⟨(encodeOps pre).length, (frame k v).length⟩ ∧
      (bad ++ 0 :: encodeOps (pre ++ (k, v) :: post)).drop
          (bad.length + 1 + (encodeOps pre).length) = frame k v ++ encodeOps post ∧
      (encodeOps pre).length < bad.length + 1 + (encodeOps pre).length ∧
      ∃ r, (Store.recover (bad ++ 0 :: encodeOps (pre ++ (k, v) :: post))).get k = some r ∧
        (encodeOps pre).length + r.length < bad.length + 1 + (encodeOps pre).length := by
  have hsplit : (splitChunks (encodeOps (pre ++ (k, v) :: post))).2 = [] := by
    rw [splitChunks_encodeOps _ hv]
  have hcache : (Store.recover (bad ++ 0 :: encodeOps (pre ++ (k, v) :: post))).cache
      = (Store.mkFresh.applyOps (pre ++ (k, v) :: post)).cache := by
    rw [recover_skip_bad bad _ hb1 hb2 hb3 hsplit, recover_encodeOps _ hv hk]
  obtain ⟨_, hent0, _⟩ := Store.applyOps_locates pre post k v hlast
  have hent : (Store.recover (bad ++ 0 :: encodeOps (pre ++ (k, v) :: post))).cache.entries k
      = some ⟨(encodeOps pre).length, (frame k v).length⟩ := by
    rw [hcache]; exact hent0
  have hE : encodeOps (pre ++ (k, v) :: post)
      = encodeOps pre ++ (frame k v ++ encodeOps post) := by
    rw [encodeOps_append]
    simp [encodeOps_cons]
  have hdrop : (bad ++ 0 :: encodeOps (pre ++ (k, v) :: post)).drop
      (bad.length + 1 + (encodeOps pre).length) = frame k v ++ encodeOps post := by
    rw [hE]
    rw [show bad ++ 0 :: (encodeOps pre ++ (frame k v ++ encodeOps post))
        = ((bad ++ [0]) ++ encodeOps pre) ++ (frame k v ++ encodeOps post) from by simp]
    rw [show bad.length + 1 + (encodeOps pre).length
        = (((bad ++ [0]) ++ encodeOps pre)).length from by
      simp only [List.length_append, List.length_cons, List.length_nil]]
    exact List.drop_left _ _
  refine ⟨hent, hdrop, by omega, ?_⟩
  obtain ⟨j, hj, hjz⟩ := zero_in_window bad (encodeOps pre) (frame k v ++ encodeOps post)
    (fun hne => encodeOps_ends_zero pre (fun hc => hne (by rw [hc]; rfl)))
  have hjz2 : (bad ++ 0 :: encodeOps (pre ++ (k, v) :: post))[(encodeOps pre).length + j]?
      = some 0 := by
    rw [hE]; exact hjz
  refine ⟨((bad ++ 0 :: encodeOps (pre ++ (k, v) :: post)).drop
      (encodeOps pre).length).takeWhile (fun b => b ≠ 0), ?_, ?_⟩
  · unfold Store.get HashMap.get
    rw [show (Store.recover (bad ++ 0 :: encodeOps (pre ++ (k, v) :: post))).fileContent
        = bad ++ 0 :: encodeOps (pre ++ (k, v) :: post) from rfl, hent]
    simp only []
    rw [if_neg (by have := frame_length_pos k v; omega)]
  · have hb : (((bad ++ 0 :: encodeOps (pre ++ (k, v) :: post)).drop
        (encodeOps pre).length).takeWhile (fun b => b ≠ 0)).length ≤ j := by
      apply length_takeWhile_le_of_get _ _ j 0
      · rw [List.getElem?_drop]
        exact hjz2
      · rfl
    omega

/-- Witness for C7 at a concrete input: the file `"xx\0" ++ "1,a\0"`. -/
theorem claim_C7_witness :
    (Store.recover ([120, 120] ++ 0 :: encodeOps ([] ++ (1, [97]) :: []))).cache.entries 1
        = some ⟨(encodeOps ([] : List (Int × List Nat))).length, (frame 1 [97]).length⟩ ∧
      ([120, 120] ++ 0 :: encodeOps ([] ++ (1, [97]) :: [])).drop
          ([120, 120].length + 1 + (encodeOps ([] : List (Int × List Nat))).length)
        = frame 1 [97] ++ encodeOps ([] : List (Int × List Nat)) ∧
      (encodeOps ([] : List (Int × List Nat))).length
        < [120, 120].length + 1 + (encodeOps ([] : List (Int × List Nat))).length ∧
      ∃ r, (Store.recover ([120, 120] ++ 0 :: encodeOps ([] ++ (1, [97]) :: []))).get 1
          = some r ∧
        (encodeOps ([] : List (Int × List Nat))).length + r.length
          < [120, 120].length + 1 + (encodeOps ([] : List (Int × List Nat))).length :=
  claim_C7_offset_misalignment [120, 120] [] [] 1 [97] (by decide) (by decide) (by decide)
    (by decide) (by decide) (by decide)

/-- Claim C8, counterexample to the claim as stated: when the physical
write and flush fail silently (`ioOk = false`), the index entry is
inserted anyway, so the index holds an entry whose byte range
`[0, 4)` lies beyond the flushed file (which is empty). -/
theorem claim_C8_counterexample :
    (Store.mkFresh.set false 5 (frame 5 [97]) (frame 5 [97]).length).2.cache.entries 5
        = some ⟨0, 4⟩ ∧
      (Store.mkFresh.set false 5 (frame 5 [97]) (frame 5 [97]).length).2.fileContent.length
        < 0 + 4 := by
  decide

/-- Claim C8, amended: on the success path (the write and flush
physically succeed), the index entry is published only after its bytes
are in the file: if every existing entry's byte range lies within the
file and the cursor equals the file length, the same holds after the
append — the new entry points exactly at the appended frame.  (On a
silent I/O failure the entry is inserted anyway; see the
counterexample.) -/
theorem claim_C8_amended (s : Store) (k : Int) (v : List Nat)
    (hcur : s.cache.currByteOffset = s.fileContent.length)
    (hrf : ∀ k₂ md, s.cache.entries k₂ = some md →
      md.byteOffset + md.byteSize ≤ s.fileContent.length) :
    (∀ k₂ md, ((s.setKV k v).2).cache.entries k₂ = some md →
      md.byteOffset + md.byteSize ≤ ((s.setKV k v).2).fileContent.length) ∧
      ((s.setKV k v).2).cache.currByteOffset = ((s.setKV k v).2).fileContent.length := by
  by_cases ho : s.isOpen
  · rw [Store.setKV_open s k v ho]
    constructor
    · intro k₂ md hmd
      simp only [HashMap.add] at hmd
      by_cases hk : k₂ = k
      · rw [if_pos hk] at hmd
        cases hmd
        simp [hcur]
      · rw [if_neg hk] at hmd
        have := hrf k₂ md hmd
        simp only [List.length_append]
        omega
    · simp [HashMap.add, hcur]
  · rw [show s.setKV k v = s.set true k (frame k v) (frame k v).length from rfl,
      Store.set_closed s true k _ _ (by simpa using ho)]
    exact ⟨hrf, hcur⟩

/-- Witness for C8 at a concrete input: one successful append to a
fresh store. -/
theorem claim_C8_witness :
    (∀ k₂ md, ((Store.mkFresh.setKV 1 [97]).2).cache.entries k₂ = some md →
      md.byteOffset + md.byteSize ≤ ((Store.mkFresh.setKV 1 [97]).2).fileContent.length) ∧
      ((Store.mkFresh.setKV 1 [97]).2).cache.currByteOffset
        = ((Store.mkFresh.setKV 1 [97]).2).fileContent.length :=
  claim_C8_amended Store.mkFresh 1 [97] rfl (fun _ _ h => nomatch h)

/-- Claim C9: the delimiter framing is binary-unsafe.  Concretely, for
the value `"0\0" ++ "1"` (which contains the reserved byte), the write
reports success, but reading the key back returns a truncated prefix
rather than the written record, and replaying the written file builds a
different index entry than the writer recorded — the frame boundaries
are corrupted. -/
theorem claim_C9_binary_unsafe :
    (Store.mkFresh.setKV 5 [48, 0, 49]).1 = true ∧ (0 ∈ [48, 0, 49]) ∧
      (Store.mkFresh.setKV 5 [48, 0, 49]).2.get 5 ≠ some (payload 5 [48, 0, 49]) ∧
      (Store.recover (Store.mkFresh.setKV 5 [48, 0, 49]).2.fileContent).cache.entries 5 ≠
        (Store.mkFresh.setKV 5 [48, 0, 49]).2.cache.entries 5 := by
  decide

/-- Claim C10: on every fresh-engine history that never writes key
`k`, `Get(k)` returns not-found (`nullptr` / `none`), and this is
distinguished from every successfully indexed record because every
index entry recorded in any of the engine's stores has a strictly
positive length. -/
theorem claim_C10_not_found (ops : List (Int × List Nat)) (k : Int)
    (hk : k ∉ ops.map Prod.fst) :
    (StorageEngine.mkFresh.applyOps ops).get k = none ∧
      EnginePos (StorageEngine.mkFresh.applyOps ops) := by
  constructor
  · exact StorageEngine.get_none_of_absent _ k
      (engineAbsent_applyOps ops k hk _ (engineAbsent_mkFresh k))
  · exact enginePos_applyOps ops _ enginePos_mkFresh

/-- Witness for C10 at a concrete input: after writing key 1, key 2 is
not found and the invariant holds. -/
theorem claim_C10_witness :
    (StorageEngine.mkFresh.applyOps [(1, [97])]).get 2 = none ∧
      EnginePos (StorageEngine.mkFresh.applyOps [(1, [97])]) :=
  claim_C10_not_found [(1, [97])] 2 (by decide)

end LogKV
